import Mathlib

/-!
Shallow embedding of the `List<T>` class of the superarray repository
(src/unnamed/part_000) and proofs about the claims of its specification.

Conventions of the embedding:
* the mutable `items: T[]` array is a Lean `List T`; methods that mutate in
  place are functions returning the new contents;
* JavaScript numbers are modelled as `ℚ` (the claims never touch NaN or
  precision loss), array indices as `Nat`/`Int` with explicit conversions;
* `undefined` results are `Option.none`;
* callbacks are explicit function arguments; a callback that may call the
  `breakFn`/`continueFn` control signals of `each` reports, besides its
  updated private state, which of the two signals it raised;
* host (ECMAScript built-in) operations that the source calls are modelled
  by their specified behaviour and marked as such in their doc comments.
-/

namespace Superarray

/-- `'asc' | 'desc'` of the source. -/
inductive SortDirection where
  | asc : SortDirection
  | desc : SortDirection
deriving DecidableEq, Repr

/-- Which of the two traversal control signals (`breakFn`, `continueFn`)
a callback invocation raised; both closures only ever set the loop-local
`breakLoop` / `continueLoop` flags of `each` to `true`. -/
structure Signals where
  brk : Bool
  cont : Bool
deriving DecidableEq, Repr

/-- The `EachContext<T>` object handed to every callback of `each`
(src/unnamed/part_000 lines 1-11 and 246-260).  The two control-signal
closures are not part of the data; a callback reports raising them via
`Signals`. -/
structure EachContext (T : Type) where
  prevIndex : Option Nat
  nextIndex : Option Nat
  prev : Option T
  next : Option T
  isFirst : Bool
  isLast : Bool
deriving DecidableEq, Repr

/-- Context computation of `iterate` in `each` (lines 242-260 of the source):
`prevIndex = reverse ? i + step : i - step`, `nextIndex` the other way,
both clamped to `undefined` outside `[0, length)`; `prev`/`next` are the raw
array reads at those positions (`undefined` when out of bounds);
`isFirst = reverse ? i === length - 1 : i === 0` and symmetrically `isLast`. -/
def ctxAt [Inhabited T] (items : List T) (rv : Bool) (step : Nat) (i : Nat) :
    EachContext T :=
  let length : Int := items.length
  let prevI : Int := if rv then (i : Int) + step else (i : Int) - step
  let nextI : Int := if rv then (i : Int) - step else (i : Int) + step
  { prevIndex := if 0 ≤ prevI ∧ prevI < length then some prevI.toNat else none
    nextIndex := if 0 ≤ nextI ∧ nextI < length then some nextI.toNat else none
    prev := if 0 ≤ prevI ∧ prevI < length then some (items.getD prevI.toNat default) else none
    next := if 0 ≤ nextI ∧ nextI < length then some (items.getD nextI.toNat default) else none
    isFirst := if rv then i == items.length - 1 else i == 0
    isLast := if rv then i == 0 else i == items.length - 1 }

/-- Index schedule of the forward loop of `each`
(`for (let i = 0; i < length; i += step)`, line 270): the multiples of
`step` below `length`; there are `⌈length/step⌉` of them when `step ≥ 1`. -/
def fwdIndices (length step : Nat) : List Nat :=
  (List.range ((length + step - 1) / step)).map (fun k => k * step)

/-- Index schedule of the reverse loop of `each`
(`for (let i = length - 1; i >= 0; i -= step)`, line 266):
`length-1, length-1-step, ...` while nonnegative. -/
def revIndices (length step : Nat) : List Nat :=
  (List.range ((length + step - 1) / step)).map (fun k => length - 1 - k * step)

/-- The full index schedule of `each` for a given configuration. -/
def eachIndices (length : Nat) (rv : Bool) (step : Nat) : List Nat :=
  if rv then revIndices length step else fwdIndices length step

/-- The loop of `each` (lines 235-273 of the source) over an explicit index
schedule.  State of the loop: the two flags `breakLoop` and `continueLoop`
plus the callback's own accumulated state `s`.  `iterate` returns at once
when `breakLoop` is set; when `continueLoop` is set it clears it and returns
without invoking the callback; otherwise the callback runs on
`(items[i], i, context)` and may raise the control signals. -/
def eachGo [Inhabited T] (items : List T) (rv : Bool) (step : Nat)
    (f : S → T → Nat → EachContext T → S × Signals) :
    List Nat → Bool → Bool → S → S
  | [], _, _, s => s
  | i :: rest, brk, cont, s =>
    if brk then eachGo items rv step f rest brk cont s
    else if cont then eachGo items rv step f rest brk false s
    else
      let r := f s (items.getD i default) i (ctxAt items rv step i)
      eachGo items rv step f rest r.2.brk r.2.cont r.1

/-- `each(callback, { reverse, step })`: run the loop over the configured
schedule with both flags initially `false`, returning the callback's final
accumulated state. -/
def eachRun [Inhabited T] (items : List T) (rv : Bool) (step : Nat)
    (f : S → T → Nat → EachContext T → S × Signals) (s0 : S) : S :=
  eachGo items rv step f (eachIndices items.length rv step) false false s0

/-- A callback (used by the witness of C1) that records the indices it is
invoked at and raises `continueFn` on index 0. -/
def recordAndContinueAt0 : List Nat → Nat → Nat → EachContext Nat → List Nat × Signals :=
  fun s _ i _ => (s ++ [i], ⟨false, i == 0⟩)

/-- C1: for every list, every traversal configuration and every callback:
if the callback invoked for a visited element `i` raises `continueFn`
(and not `breakFn`), then the next scheduled visit `j` is skipped entirely
(the callback is not invoked for it, so the state is not touched at `j`),
the flag is cleared, and the traversal resumes on the remaining schedule
with both flags clear; the current visit `i` itself is unaffected (its
callback ran and its state update is kept). -/
theorem each_requestContinue_skips_next [Inhabited T]
    (items : List T) (rv : Bool) (step : Nat)
    (f : S → T → Nat → EachContext T → S × Signals)
    (i j : Nat) (rest : List Nat) (s : S)
    (hb : (f s (items.getD i default) i (ctxAt items rv step i)).2.brk = false)
    (hc : (f s (items.getD i default) i (ctxAt items rv step i)).2.cont = true) :
    eachGo items rv step f (i :: j :: rest) false false s =
      eachGo items rv step f rest false false
        (f s (items.getD i default) i (ctxAt items rv step i)).1 := by
  simp only [eachGo, if_neg (Bool.false_ne_true), hb, hc, ite_true, ite_false,
    Bool.false_eq_true, if_false, if_true]

/-- Witness for C1: on the list `[10, 20, 30]` traversed forward with step 1,
a callback that records visited indices and raises `continueFn` at index 0
makes the traversal skip index 1 and resume cleanly at the rest of the
schedule. -/
theorem each_requestContinue_skips_next_witness :
    eachGo [10, 20, 30] false 1 recordAndContinueAt0 [0, 1, 2] false false [] =
      eachGo [10, 20, 30] false 1 recordAndContinueAt0 [2] false false [0] := by
  exact each_requestContinue_skips_next [10, 20, 30] false 1 recordAndContinueAt0
    0 1 [2] [] (by decide) (by decide)

/-- Loop body of the `mode` getter (src/unnamed/part_000 lines 132-147):
for each item, bump its count in the map; when the new count strictly
exceeds the running maximum, the running maximum and `modeValue` are
replaced by it.  The `Map<T, number>` keyed by value equality is modelled
as a function `T → Nat`. -/
def modeLoop [DecidableEq T] : List T → (T → Nat) → Nat → Option T → Option T
  | [], _, _, mv => mv
  | x :: rest, counts, maxCount, mv =>
    let c := counts x + 1
    let counts1 := fun y => if y = x then c else counts y
    if c > maxCount then modeLoop rest counts1 c (some x)
    else modeLoop rest counts1 maxCount mv

/-- The `mode` getter: run the counting loop over the items with an empty
map, zero maximum and undefined `modeValue`. -/
def mode [DecidableEq T] (l : List T) : Option T :=
  modeLoop l (fun _ => 0) 0 none

/-- The maximum occurrence count over all elements of a list (0 for the
empty list). -/
def maxCountOf [DecidableEq T] (l : List T) : Nat :=
  (l.map (fun x => l.count x)).foldr max 0

/-- The mode as claim C2 words it: the first-encountered element (by
position of first occurrence, under value equality) among the elements
attaining the maximum occurrence count. -/
def specModeFirst [DecidableEq T] (l : List T) : Option T :=
  l.find? (fun x => l.count x == maxCountOf l)

/-- Counterexample to C2: on `[1, 2, 2, 1]` both `1` and `2` attain the
maximum count 2, and the first-encountered of them is `1`, but `mode`
returns `2` — the element whose count reached the maximum first, not the
one with the earliest first occurrence. -/
theorem mode_not_first_encountered :
    mode [1, 2, 2, 1] = some 2 ∧ specModeFirst [1, 2, 2, 1] = some 1 ∧
      mode [1, 2, 2, 1] ≠ specModeFirst [1, 2, 2, 1] := by
  refine ⟨by decide, by decide, by decide⟩

/-- Occurrence count of the element at position `p` within the prefix of
the list up to and including `p` ("running count" of a left-to-right scan
when it reaches position `p`). -/
def runningCount [DecidableEq T] [Inhabited T] (l : List T) (p : Nat) : Nat :=
  (l.take (p + 1)).count (l.getD p default)

lemma le_foldrMax {L : List Nat} {a : Nat} (h : a ∈ L) : a ≤ L.foldr max 0 := by
  induction L with
  | nil => cases h
  | cons b L ih =>
    rcases List.mem_cons.mp h with rfl | h2
    · exact le_max_left _ _
    · exact le_trans (ih h2) (le_max_right _ _)

lemma foldrMax_le {L : List Nat} {n : Nat} (h : ∀ a ∈ L, a ≤ n) : L.foldr max 0 ≤ n := by
  induction L with
  | nil => simp
  | cons b L ih =>
    simp only [List.foldr_cons]
    exact max_le (h b (List.mem_cons_self _ _)) (ih fun a ha => h a (List.mem_cons_of_mem _ ha))

lemma count_le_maxCountOf [DecidableEq T] {l : List T} {y : T} (h : y ∈ l) :
    l.count y ≤ maxCountOf l :=
  le_foldrMax (List.mem_map.mpr ⟨y, h, rfl⟩)

lemma count_append_singleton [DecidableEq T] (u : List T) (x y : T) :
    (u ++ [x]).count y = u.count y + if x = y then 1 else 0 := by
  rw [List.count_append, List.count_singleton]
  congr 1
  by_cases h : x = y <;> simp [h]

lemma maxCountOf_append_singleton [DecidableEq T] (u : List T) (x : T) :
    maxCountOf (u ++ [x]) = max (maxCountOf u) (u.count x + 1) := by
  apply le_antisymm
  · apply foldrMax_le
    intro a ha
    rcases List.mem_map.mp ha with ⟨y, hy, rfl⟩
    rw [count_append_singleton]
    by_cases hxy : x = y
    · subst hxy
      simp only [if_pos rfl]
      exact le_max_right _ _
    · have hyu : y ∈ u := by
        rcases List.mem_append.mp hy with h | h
        · exact h
        · simp at h; exact absurd h.symm hxy
      simp only [if_neg hxy, Nat.add_zero]
      exact le_trans (count_le_maxCountOf hyu) (le_max_left _ _)
  · apply max_le
    · apply foldrMax_le
      intro a ha
      rcases List.mem_map.mp ha with ⟨y, hy, rfl⟩
      have h1 : u.count y ≤ (u ++ [x]).count y := by
        rw [count_append_singleton]; omega
      exact le_trans h1 (count_le_maxCountOf (List.mem_append.mpr (Or.inl hy)))
    · have h1 : (u ++ [x]).count x = u.count x + 1 := by
        rw [count_append_singleton]; simp
      rw [← h1]
      exact count_le_maxCountOf (List.mem_append.mpr (Or.inr (List.mem_singleton.mpr rfl)))

lemma runningCount_append_singleton_lt [DecidableEq T] [Inhabited T]
    (u : List T) (x : T) (p : Nat) (hp : p < u.length) :
    runningCount (u ++ [x]) p = runningCount u p := by
  unfold runningCount
  rw [List.getD_append _ _ _ _ hp, List.take_append_of_le_length (by omega)]

lemma runningCount_append_singleton_self [DecidableEq T] [Inhabited T]
    (u : List T) (x : T) :
    runningCount (u ++ [x]) u.length = u.count x + 1 := by
  unfold runningCount
  rw [List.getD_append_right _ _ _ _ (le_refl _), Nat.sub_self]
  rw [List.take_of_length_le (by simp)]
  simp only [List.getD, List.get?, Option.getD_some]
  rw [count_append_singleton]
  simp

lemma runningCount_le_count [DecidableEq T] [Inhabited T] (l : List T) (q : Nat) :
    runningCount l q ≤ l.count (l.getD q default) :=
  List.Sublist.count_le (List.take_sublist _ _) _

lemma modeLoop_invariant [DecidableEq T] [Inhabited T] :
    ∀ (v u : List T) (counts : T → Nat) (mx : Nat) (mv : Option T),
      (∀ x, counts x = u.count x) →
      mx = maxCountOf u →
      ((u = [] ∧ mv = none) ∨
        (∃ p, p < u.length ∧ mv = some (u.getD p default) ∧
          runningCount u p = mx ∧ ∀ q, q < p → runningCount u q < mx)) →
      ((u ++ v = [] ∧ modeLoop v counts mx mv = none) ∨
        (∃ p, p < (u ++ v).length ∧
          modeLoop v counts mx mv = some ((u ++ v).getD p default) ∧
          runningCount (u ++ v) p = maxCountOf (u ++ v) ∧
          ∀ q, q < p → runningCount (u ++ v) q < maxCountOf (u ++ v))) := by
  intro v
  induction v with
  | nil =>
    intro u counts mx mv hc hm hinv
    rcases hinv with ⟨hu, hmv⟩ | ⟨p, hp, hmv, hr, hq⟩
    · left
      exact ⟨by simp [hu], by simp [modeLoop, hmv]⟩
    · right
      exact ⟨p, by simpa using hp, by simpa [modeLoop] using hmv,
        by simpa [hm] using hr, by simpa [hm] using hq⟩
  | cons x v ih =>
    intro u counts mx mv hc hm hinv
    have happ : (u ++ [x]) ++ v = u ++ x :: v := by simp
    by_cases hgt : counts x + 1 > mx
    · have hstep : modeLoop (x :: v) counts mx mv =
          modeLoop v (fun y => if y = x then counts x + 1 else counts y)
            (counts x + 1) (some x) := by
        simp only [modeLoop, if_pos hgt]
      rw [hstep]
      have hres := ih (u ++ [x]) (fun y => if y = x then counts x + 1 else counts y)
        (counts x + 1) (some x) ?_ ?_ ?_
      · rw [happ] at hres
        exact hres
      · intro y
        rw [count_append_singleton]
        by_cases h : y = x
        · subst h; simp [hc]
        · have hxy : ¬ x = y := fun h2 => h h2.symm
          simp [h, hxy, hc]
      · rw [maxCountOf_append_singleton]
        have := hc x
        rw [Nat.max_eq_right (by omega)]
        omega
      · right
        refine ⟨u.length, by simp, ?_, ?_, ?_⟩
        · rw [List.getD_append_right _ _ _ _ (le_refl _), Nat.sub_self]
          rfl
        · rw [runningCount_append_singleton_self, hc x]
        · intro q hq
          rw [runningCount_append_singleton_lt _ _ _ hq]
          have h1 := runningCount_le_count u q
          have h2 : u.getD q default ∈ u := by
            rw [List.getD_eq_getElem _ _ hq]
            exact List.getElem_mem hq
          have h3 := count_le_maxCountOf h2
          omega
    · have hstep : modeLoop (x :: v) counts mx mv =
          modeLoop v (fun y => if y = x then counts x + 1 else counts y) mx mv := by
        simp only [modeLoop, if_neg hgt]
      rw [hstep]
      have hres := ih (u ++ [x]) (fun y => if y = x then counts x + 1 else counts y)
        mx mv ?_ ?_ ?_
      · rw [happ] at hres
        exact hres
      · intro y
        rw [count_append_singleton]
        by_cases h : y = x
        · subst h; simp [hc]
        · have hxy : ¬ x = y := fun h2 => h h2.symm
          simp [h, hxy, hc]
      · rw [maxCountOf_append_singleton]
        have := hc x
        rw [Nat.max_eq_left (by omega)]
        exact hm
      · rcases hinv with ⟨hu, hmv⟩ | ⟨p, hp, hmv, hr, hq⟩
        · exfalso
          subst hu
          have h0 : counts x = 0 := by simpa using hc x
          have h1 : mx = 0 := by simpa [maxCountOf] using hm
          omega
        · right
          refine ⟨p, by simp; omega, ?_, ?_, ?_⟩
          · rw [List.getD_append _ _ _ _ hp]
            exact hmv
          · rw [runningCount_append_singleton_lt _ _ _ hp]
            exact hr
          · intro q hq2
            rw [runningCount_append_singleton_lt _ _ _ (by omega)]
            exact hq q hq2

/-- C2 amended: for a non-empty list, `mode` returns the element at the
earliest position whose running occurrence count (occurrences of the
element within the prefix ending at that position) reaches the list's
maximum occurrence count — i.e. the element that first attains the maximal
count in a left-to-right scan — not the element with the earliest first
occurrence; for the empty list it returns the no-value sentinel. -/
theorem mode_first_to_attain [DecidableEq T] [Inhabited T] (l : List T) :
    (l = [] → mode l = none) ∧
    (l ≠ [] → ∃ p, p < l.length ∧ mode l = some (l.getD p default) ∧
      runningCount l p = maxCountOf l ∧
      ∀ q, q < p → runningCount l q < maxCountOf l) := by
  have h := modeLoop_invariant l [] (fun _ => 0) 0 none (by simp) rfl (Or.inl ⟨rfl, rfl⟩)
  simp only [List.nil_append] at h
  constructor
  · intro hl
    rcases h with ⟨_, h2⟩ | ⟨p, hp, _, _⟩
    · exact h2
    · rw [hl] at hp; simp at hp
  · intro hl
    rcases h with ⟨h1, _⟩ | hres
    · exact absurd h1 hl
    · exact hres

/-- Witness for the amended C2 at the concrete list `[1, 2, 2, 1]`. -/
theorem mode_first_to_attain_witness :
    ∃ p, p < ([1, 2, 2, 1] : List ℕ).length ∧
      mode [1, 2, 2, 1] = some (([1, 2, 2, 1] : List ℕ).getD p default) ∧
      runningCount [1, 2, 2, 1] p = maxCountOf [1, 2, 2, 1] ∧
      ∀ q, q < p → runningCount [1, 2, 2, 1] q < maxCountOf [1, 2, 2, 1] :=
  (mode_first_to_attain [1, 2, 2, 1]).2 (by decide)

/-- One insertion into a JS `Set`, modelled on the insertion-order list of
the set's elements: per ECMAScript, `Set.prototype.add` appends the value
unless an equal (SameValueZero) value is already present. -/
def jsSetInsert [DecidableEq T] (acc : List T) (x : T) : List T :=
  if x ∈ acc then acc else acc ++ [x]

/-- Modelled host expression `[...new Set(l)]`: insert every element in
order into an initially empty set and read the elements back in insertion
order. -/
def jsSetList [DecidableEq T] (l : List T) : List T :=
  l.foldl jsSetInsert []

/-- The `unique` getter (src/unnamed/part_000 lines 107-109):
`new List([...new Set(this.items)])`.  First component: the contents of the
returned list; second component: the container's own contents after the
call (the getter only reads them). -/
def uniqueRun [DecidableEq T] (l : List T) : List T × List T :=
  (jsSetList l, l)

/-- Claim-side definition for C10: exactly one copy of each distinct value,
ordered by the position of the value's first occurrence (keep the head,
delete its later duplicates, recurse). -/
def keepFirstOccurrences [DecidableEq T] : List T → List T
  | [] => []
  | x :: xs => x :: keepFirstOccurrences (xs.filter (fun y => decide (y ≠ x)))
termination_by l => l.length
decreasing_by
  simp only [List.length_cons]
  exact Nat.lt_succ_of_le (List.length_filter_le _ _)

lemma foldl_jsSetInsert [DecidableEq T] :
    ∀ (l acc : List T),
      l.foldl jsSetInsert acc =
        acc ++ keepFirstOccurrences (l.filter (fun y => decide (y ∉ acc))) := by
  intro l
  induction l with
  | nil => intro acc; simp [keepFirstOccurrences]
  | cons x xs ih =>
    intro acc
    simp only [List.foldl_cons]
    by_cases hx : x ∈ acc
    · rw [jsSetInsert, if_pos hx, ih]
      have hfil : (x :: xs).filter (fun y => decide (y ∉ acc)) =
          xs.filter (fun y => decide (y ∉ acc)) := by
        rw [List.filter_cons]
        simp [hx]
      rw [hfil]
    · rw [jsSetInsert, if_neg hx, ih]
      have hfil : (x :: xs).filter (fun y => decide (y ∉ acc)) =
          x :: xs.filter (fun y => decide (y ∉ acc)) := by
        rw [List.filter_cons]
        simp [hx]
      rw [hfil, keepFirstOccurrences, List.append_assoc]
      have hfil2 : xs.filter (fun y => decide (y ∉ acc ++ [x])) =
          (xs.filter (fun y => decide (y ∉ acc))).filter (fun y => decide (y ≠ x)) := by
        rw [List.filter_filter]
        apply List.filter_congr
        intro a _
        simp only [List.mem_append, List.mem_singleton, decide_eq_true_eq,
          Bool.and_eq_true, decide_not, not_or]
        by_cases h1 : a ∈ acc <;> by_cases h2 : a = x <;> simp [h1, h2]
      rw [hfil2]
      rfl

lemma mem_keepFirstOccurrences_aux [DecidableEq T] :
    ∀ (n : Nat) (l : List T), l.length ≤ n →
      ∀ x, (x ∈ keepFirstOccurrences l ↔ x ∈ l) := by
  intro n
  induction n with
  | zero =>
    intro l hl x
    rw [List.length_eq_zero.mp (Nat.le_zero.mp hl)]
    simp [keepFirstOccurrences]
  | succ n ih =>
    intro l hl x
    match l with
    | [] => simp [keepFirstOccurrences]
    | a :: xs =>
      rw [keepFirstOccurrences]
      simp only [List.mem_cons]
      have hlen : (xs.filter (fun y => decide (y ≠ a))).length ≤ n := by
        have := List.length_filter_le (fun y => decide (y ≠ a)) xs
        simp only [List.length_cons] at hl
        omega
      constructor
      · rintro (rfl | hmem)
        · exact Or.inl rfl
        · have := (ih _ hlen x).mp hmem
          exact Or.inr (List.mem_of_mem_filter this)
      · rintro (rfl | hmem)
        · exact Or.inl rfl
        · by_cases hxa : x = a
          · exact Or.inl hxa
          · refine Or.inr ((ih _ hlen x).mpr ?_)
            exact List.mem_filter.mpr ⟨hmem, by simpa using hxa⟩

lemma nodup_keepFirstOccurrences_aux [DecidableEq T] :
    ∀ (n : Nat) (l : List T), l.length ≤ n → (keepFirstOccurrences l).Nodup := by
  intro n
  induction n with
  | zero =>
    intro l hl
    rw [List.length_eq_zero.mp (Nat.le_zero.mp hl)]
    simp [keepFirstOccurrences]
  | succ n ih =>
    intro l hl
    match l with
    | [] => simp [keepFirstOccurrences]
    | a :: xs =>
      rw [keepFirstOccurrences]
      have hlen : (xs.filter (fun y => decide (y ≠ a))).length ≤ n := by
        have := List.length_filter_le (fun y => decide (y ≠ a)) xs
        simp only [List.length_cons] at hl
        omega
      refine List.nodup_cons.mpr ⟨?_, ih _ hlen⟩
      intro hmem
      have := (mem_keepFirstOccurrences_aux n _ hlen a).mp hmem
      have := List.of_mem_filter this
      simp at this

/-- C10: `unique` returns a new list containing exactly one copy of each
distinct value (value equality), ordered by the position of each value's
first occurrence in storage order, and leaves the original list
unchanged. -/
theorem unique_keeps_first_occurrences [DecidableEq T] (l : List T) :
    (uniqueRun l).1 = keepFirstOccurrences l ∧
      (uniqueRun l).1.Nodup ∧
      (∀ x, x ∈ (uniqueRun l).1 ↔ x ∈ l) ∧
      (uniqueRun l).2 = l := by
  have h1 : jsSetList l = keepFirstOccurrences l := by
    have h := foldl_jsSetInsert l []
    have hfil : l.filter (fun y => decide (y ∉ ([] : List T))) = l := by
      apply List.filter_eq_self.mpr
      intro a _
      simp
    rw [hfil] at h
    simpa [jsSetList] using h
  refine ⟨h1, ?_, ?_, rfl⟩
  · show (jsSetList l).Nodup
    rw [h1]
    exact nodup_keepFirstOccurrences_aux l.length l (le_refl _)
  · intro x
    show x ∈ jsSetList l ↔ x ∈ l
    rw [h1]
    exact mem_keepFirstOccurrences_aux l.length l (le_refl _) x

/-- The loop of `chunk(size)` (src/unnamed/part_000 lines 655-661):
`for (let i = 0; i < length; i += size)` pushing `items.slice(i, i + size)`
(the elements at positions `[i, i+size)`).  The loop index advances by
`size` each iteration, so totality holds under the precondition
`0 < size`, carried as an argument. -/
def chunkGo (l : List T) (size : Nat) (hs : 0 < size) (i : Nat) : List (List T) :=
  if _h : i < l.length then ((l.take (i + size)).drop i) :: chunkGo l size hs (i + size)
  else []
termination_by l.length - i
decreasing_by omega

/-- `chunk(size)`: run the chunking loop from index 0. -/
def chunk (l : List T) (size : Nat) (hs : 0 < size) : List (List T) :=
  chunkGo l size hs 0

lemma chunkGo_length (l : List T) (size : Nat) (hs : 0 < size) :
    ∀ (n i : Nat), l.length - i ≤ n →
      (chunkGo l size hs i).length = (l.length - i + size - 1) / size := by
  intro n
  induction n with
  | zero =>
    intro i hi
    rw [chunkGo, dif_neg (by omega)]
    have h0 : l.length - i = 0 := by omega
    rw [h0, List.length_nil]
    exact (Nat.div_eq_of_lt (by omega)).symm
  | succ n ih =>
    intro i hi
    by_cases h : i < l.length
    · rw [chunkGo, dif_pos h]
      simp only [List.length_cons]
      rw [ih (i + size) (by omega)]
      have hR1 : 1 ≤ l.length - i := by omega
      have hsub : l.length - (i + size) = l.length - i - size := by omega
      rw [hsub]
      set R := l.length - i with hR
      by_cases hRs : size ≤ R
      · have h1 : R - size + size - 1 = R - 1 := by omega
        have h2 : R + size - 1 = (R - 1) + size := by omega
        rw [h1, h2, Nat.add_div_right _ hs]
      · have h1 : R - size = 0 := by omega
        rw [h1, Nat.zero_add, Nat.div_eq_of_lt (by omega)]
        have h2 : (R + size - 1) / size = 1 := by
          apply Nat.div_eq_of_lt_le <;> omega
        omega
    · rw [chunkGo, dif_neg h]
      have h0 : l.length - i = 0 := by omega
      rw [h0, List.length_nil]
      exact (Nat.div_eq_of_lt (by omega)).symm

/-- C9: under the precondition `size ≥ 1`, `chunk(size)` terminates (the
Lean function is total with the strictly increasing loop index) and
produces `⌈length/size⌉` groups; and for `size ≤ 0` on a non-empty list the
loop guard `i < length` is satisfied after every number of iterations
(the index after `n` iterations is `n*size ≤ 0 < length`), so the loop
never exits and totality cannot hold without the precondition. -/
theorem chunk_ceil_count_and_guard (l : List T) :
    (∀ (size : Nat) (hs : 0 < size),
      (chunk l size hs).length = (l.length + size - 1) / size) ∧
    (∀ size : Int, size ≤ 0 → 0 < l.length →
      ∀ n : Nat, (n : Int) * size < l.length) := by
  constructor
  · intro size hs
    have h := chunkGo_length l size hs l.length 0 (by omega)
    simpa [chunk] using h
  · intro size hsz hl n
    have h1 : (n : Int) * size ≤ 0 :=
      mul_nonpos_iff.mpr (Or.inl ⟨Int.natCast_nonneg n, hsz⟩)
    omega

/-- Witness for C9: `[1,2,3,4,5]` chunked with size 2 gives ⌈5/2⌉ = 3
groups, and with size −1 the loop index stays below the length after any
number of iterations. -/
theorem chunk_ceil_count_and_guard_witness :
    (chunk ([1, 2, 3, 4, 5] : List ℕ) 2 (by decide)).length =
        (([1, 2, 3, 4, 5] : List ℕ).length + 2 - 1) / 2 ∧
      ((3 : Nat) : Int) * (-1) < (([1, 2, 3, 4, 5] : List ℕ)).length :=
  ⟨(chunk_ceil_count_and_guard [1, 2, 3, 4, 5]).1 2 (by decide),
    (chunk_ceil_count_and_guard [1, 2, 3, 4, 5]).2 (-1) (by decide) (by decide) 3⟩

/-- Index resolution of the modelled host `Array.prototype.slice`: a
negative argument counts from the end (clamped at 0), a non-negative one
is clamped at the length. -/
def jsSliceIdx (len : Nat) (x : Int) : Nat :=
  (if x < 0 then max ((len : Int) + x) 0 else min x (len : Int)).toNat

/-- Modelled host `Array.prototype.slice(start, end)`: the elements at the
resolved positions `[start, end)`. -/
def jsSlice (l : List T) (start fin : Int) : List T :=
  (l.take (jsSliceIdx l.length fin)).drop (jsSliceIdx l.length start)

/-- `rotate(k)` (src/unnamed/part_000 lines 664-670): nothing on an empty
list; otherwise `k = k % length` with the JS truncating remainder
(`Int.tmod`), `if (k < 0) k += length`, and the new contents are
`[...items.slice(-k), ...items.slice(0, -k)]`. -/
def rotate (l : List T) (k : Int) : List T :=
  if l.length = 0 then l
  else
    let k1 := Int.tmod k (l.length : Int)
    let k2 := if k1 < 0 then k1 + l.length else k1
    jsSlice l (-k2) (l.length : Int) ++ jsSlice l 0 (-k2)

lemma neg_tmod_eq (a b : ℤ) : Int.tmod (-a) b = -(Int.tmod a b) := by
  rw [Int.tmod_def, Int.tmod_def, Int.neg_tdiv]
  ring

/-- The normalized shift computed inside `rotate` equals the Euclidean
remainder `k % length`. -/
lemma jsNormalizedShift_eq_emod (k n : ℤ) (hn : 0 < n) :
    (if Int.tmod k n < 0 then Int.tmod k n + n else Int.tmod k n) = k % n := by
  have hdvd : Int.tmod k n - k % n = n * (k / n - Int.tdiv k n) := by
    rw [Int.tmod_def, Int.emod_def]
    ring
  have he1 : 0 ≤ k % n := Int.emod_nonneg k (ne_of_gt hn)
  have he2 : k % n < n := Int.emod_lt_of_pos k hn
  have ht2 : Int.tmod k n < n := Int.tmod_lt_of_pos k hn
  have ht1 : -n < Int.tmod k n := by
    rcases le_or_lt 0 k with hk | hk
    · have := Int.tmod_nonneg n hk
      omega
    · have hk2 : Int.tmod k n = -(Int.tmod (-k) n) := by
        rw [← neg_tmod_eq, neg_neg]
      have := Int.tmod_lt_of_pos (-k) hn
      omega
  set c := k / n - Int.tdiv k n with hcdef
  have hc1 : n * c < n * 1 := by omega
  have hc2 : n * (-2) < n * c := by omega
  have hc3 : c < 1 := (mul_lt_mul_left hn).mp hc1
  have hc4 : (-2 : ℤ) < c := (mul_lt_mul_left hn).mp hc2
  interval_cases c
  · have : Int.tmod k n = k % n - n := by omega
    rw [if_pos (by omega)]
    omega
  · have : Int.tmod k n = k % n := by omega
    rw [this, if_neg (by omega)]

lemma jsSliceIdx_len_arg (len : Nat) : jsSliceIdx len (len : Int) = len := by
  unfold jsSliceIdx
  rw [if_neg (by omega), min_self]
  omega

lemma jsSliceIdx_zero_arg (len : Nat) : jsSliceIdx len 0 = 0 := by
  unfold jsSliceIdx
  rw [if_neg (by omega), min_eq_left (by omega)]
  rfl

lemma jsSliceIdx_neg_arg (len k : Nat) (h : 0 < k) (hk : k ≤ len) :
    jsSliceIdx len (-(k : Int)) = len - k := by
  unfold jsSliceIdx
  rw [if_pos (by omega), max_eq_left (by omega)]
  omega

lemma jsSlice_full (l : List T) : jsSlice l 0 (l.length : Int) = l := by
  unfold jsSlice
  rw [jsSliceIdx_len_arg, jsSliceIdx_zero_arg]
  simp

lemma jsSlice_empty (l : List T) : jsSlice l 0 0 = [] := by
  unfold jsSlice
  rw [jsSliceIdx_zero_arg]
  simp

lemma jsSlice_last (l : List T) (k : Nat) (h : 0 < k) (hk : k ≤ l.length) :
    jsSlice l (-(k : Int)) (l.length : Int) = l.drop (l.length - k) := by
  unfold jsSlice
  rw [jsSliceIdx_len_arg, jsSliceIdx_neg_arg _ _ h hk]
  simp

lemma jsSlice_first (l : List T) (k : Nat) (h : 0 < k) (hk : k ≤ l.length) :
    jsSlice l 0 (-(k : Int)) = l.take (l.length - k) := by
  unfold jsSlice
  rw [jsSliceIdx_neg_arg _ _ h hk, jsSliceIdx_zero_arg]
  simp

/-- `rotate` on a non-empty list with a shift already in `[0, length)` is
the right cyclic shift: last `k` elements first, then the first
`length − k`. -/
lemma rotate_eq_of_lt (l : List T) (k : Nat) (hl : l ≠ []) (hk : k < l.length) :
    rotate l (k : Int) = l.drop (l.length - k) ++ l.take (l.length - k) := by
  have hlen : l.length ≠ 0 := by simpa using (List.length_pos.mpr hl).ne'
  unfold rotate
  rw [if_neg hlen]
  have h1 : Int.tmod (k : Int) (l.length : Int) = (k : Int) :=
    Int.tmod_eq_of_lt (by omega) (by omega)
  simp only [h1, if_neg (show ¬((k : Int) < 0) by omega)]
  by_cases h0 : k = 0
  · subst h0
    rw [show (-(0 : Nat) : Int) = 0 by omega] at *
    rw [jsSlice_full, jsSlice_empty]
    simp
  · rw [jsSlice_last l k (by omega) (le_of_lt hk), jsSlice_first l k (by omega) (le_of_lt hk)]

/-- `rotate` only depends on the shift through its Euclidean residue
modulo the length: the truncating remainder plus the conditional
`+= length` normalize any shift into `[0, length)`. -/
lemma rotate_emod (l : List T) (hl : l ≠ []) (j : Int) :
    rotate l j = rotate l (j % (l.length : Int)) := by
  have hlen0 : l.length ≠ 0 := by simpa using (List.length_pos.mpr hl).ne'
  have hpos : (0 : Int) < (l.length : Int) := by
    have := List.length_pos.mpr hl
    omega
  have he1 : 0 ≤ j % (l.length : Int) := Int.emod_nonneg j (by omega)
  have he2 : j % (l.length : Int) < (l.length : Int) := Int.emod_lt_of_pos j hpos
  have htm : Int.tmod (j % (l.length : Int)) (l.length : Int) = j % (l.length : Int) :=
    Int.tmod_eq_of_lt he1 he2
  have hnorm := jsNormalizedShift_eq_emod j (l.length : Int) hpos
  unfold rotate
  rw [if_neg hlen0, if_neg hlen0]
  simp only [htm, if_neg (not_lt.mpr he1)]
  rw [hnorm]

/-- C7: for a non-empty list and `0 ≤ k < length`, `rotate(k)` followed by
`rotate(length − k)` restores the original sequence, and `rotate`
normalizes an arbitrary (negative or out-of-range) shift via modulo into
`[0, length)`. -/
theorem rotate_then_rotate_complement (l : List T) (k : Int)
    (hl : l ≠ []) (h0 : 0 ≤ k) (hk : k < (l.length : Int)) :
    rotate (rotate l k) ((l.length : Int) - k) = l ∧
      (∀ j : Int, rotate l j = rotate l (j % (l.length : Int)) ∧
        0 ≤ j % (l.length : Int) ∧ j % (l.length : Int) < (l.length : Int)) := by
  have hpos : 0 < l.length := List.length_pos.mpr hl
  constructor
  · set kn := k.toNat with hkn
    have hk1 : (kn : Int) = k := Int.toNat_of_nonneg h0
    have hk2 : kn < l.length := by omega
    have hrot1 : rotate l k = l.drop (l.length - kn) ++ l.take (l.length - kn) := by
      rw [← hk1]
      exact rotate_eq_of_lt l kn hl hk2
    set l2 := l.drop (l.length - kn) ++ l.take (l.length - kn) with hl2
    have hlen2 : l2.length = l.length := by
      rw [hl2, List.length_append, List.length_drop, List.length_take]
      omega
    have hl2ne : l2 ≠ [] := by
      intro hemp
      rw [hemp] at hlen2
      simp at hlen2
      omega
    rw [hrot1]
    by_cases hzero : kn = 0
    · have hsimp : l2 = l := by
        rw [hl2, hzero, Nat.sub_zero, List.drop_length, List.take_length, List.nil_append]
      have hshift : (l.length : Int) - k = (l.length : Int) := by omega
      rw [hsimp, hshift, rotate_emod l hl, Int.emod_self]
      have h00 : ((0 : Nat) : Int) = (0 : Int) := rfl
      rw [← h00, rotate_eq_of_lt l 0 hl (by omega)]
      simp
    · have hm : (l.length : Int) - k = ((l.length - kn : Nat) : Int) := by omega
      have hmlt : l.length - kn < l.length := by omega
      rw [hm]
      have := rotate_eq_of_lt l2 (l.length - kn) hl2ne (by omega)
      rw [hlen2] at this
      rw [this]
      have hsub : l.length - (l.length - kn) = kn := by omega
      rw [hsub]
      have hdlen : (l.drop (l.length - kn)).length = kn := by
        rw [List.length_drop]
        omega
      rw [hl2, List.drop_left' hdlen, List.take_left' hdlen]
      exact List.take_append_drop _ l
  · intro j
    have hpos2 : (0 : Int) < (l.length : Int) := by omega
    exact ⟨rotate_emod l hl j, Int.emod_nonneg j (by omega), Int.emod_lt_of_pos j hpos2⟩

/-- Witness for C7 on `[1, 2, 3]` with `k = 1`, plus the normalization of
the out-of-range shift `−5`. -/
theorem rotate_then_rotate_complement_witness :
    rotate (rotate ([1, 2, 3] : List ℕ) 1) ((([1, 2, 3] : List ℕ).length : Int) - 1) =
        [1, 2, 3] ∧
      rotate ([1, 2, 3] : List ℕ) (-5) =
        rotate ([1, 2, 3] : List ℕ) ((-5) % (([1, 2, 3] : List ℕ).length : Int)) :=
  ⟨(rotate_then_rotate_complement [1, 2, 3] 1 (by decide) (by decide) (by decide)).1,
    ((rotate_then_rotate_complement [1, 2, 3] 1 (by decide) (by decide) (by decide)).2
      (-5)).1⟩

/-- Modelled host `Array.prototype.lastIndexOf(searchElement)` with its
default `fromIndex`: the largest index holding a strictly-equal element,
`-1` when the element is absent. -/
def jsLastIndexOf [DecidableEq T] (l : List T) (e : T) : Int :=
  match l.reverse.findIdx? (fun y => y == e) with
  | some k => ((l.length - 1 - k : Nat) : Int)
  | none => -1

/-- `lastIndexOfWithEach(searchElement)` with its default
`fromIndex = this.length - 1` (src/unnamed/part_000 lines 412-423): a
reverse `each` traversal whose callback overwrites `foundIndex` on every
match with `index <= fromIndex`, raising neither control signal. -/
def lastIndexOfWithEach [DecidableEq T] [Inhabited T] (l : List T) (e : T) : Int :=
  eachRun l true 1
    (fun s v i _ =>
      (if (i : Int) ≤ (l.length : Int) - 1 ∧ v = e then (i : Int) else s,
        ⟨false, false⟩))
    (-1)

/-- C6 (code-bug evidence): on `[1, 2, 1]` searching for `1`,
`lastIndexOf` returns 2 (the last occurrence) but `lastIndexOfWithEach`
returns 0: the reverse traversal keeps overwriting `foundIndex` on every
match without breaking, so the final value is the first occurrence. -/
theorem lastIndexOfWithEach_diverges_from_lastIndexOf :
    jsLastIndexOf [1, 2, 1] 1 = 2 ∧ lastIndexOfWithEach [1, 2, 1] 1 = 0 := by
  constructor
  · decide
  · decide

lemma eachIndices_pos_length {rv : Bool} {length step i : Nat}
    (hi : i ∈ eachIndices length rv step) : 0 < length := by
  by_contra h
  have hlen : length = 0 := by omega
  subst hlen
  have hm : (0 + step - 1) / step = 0 := by
    rcases Nat.eq_zero_or_pos step with h0 | h0
    · simp [h0]
    · exact Nat.div_eq_of_lt (by omega)
  rw [show (0 : Nat) + step - 1 = step - 1 by omega] at hm
  cases rv <;> simp [eachIndices, fwdIndices, revIndices, hm] at hi

lemma eachIndices_range_count (length step : Nat) (hs : 0 < step) (hl : 0 < length) :
    (length + step - 1) / step = (length - 1) / step + 1 := by
  have h1 : length + step - 1 = (length - 1) + step := by omega
  rw [h1, Nat.add_div_right _ hs]

lemma mem_fwdIndices {length step i : Nat} (hi : i ∈ fwdIndices length step) :
    ∃ k, k < (length + step - 1) / step ∧ i = k * step := by
  rcases List.mem_map.mp hi with ⟨k, hk, rfl⟩
  exact ⟨k, List.mem_range.mp hk, rfl⟩

lemma mem_revIndices {length step i : Nat} (hi : i ∈ revIndices length step) :
    ∃ k, k < (length + step - 1) / step ∧ i = length - 1 - k * step := by
  rcases List.mem_map.mp hi with ⟨k, hk, rfl⟩
  exact ⟨k, List.mem_range.mp hk, rfl⟩

lemma mul_step_le {length step k : Nat} (hs : 0 < step) (hl : 0 < length)
    (hk : k < (length + step - 1) / step) : k * step ≤ length - 1 := by
  rw [eachIndices_range_count length step hs hl] at hk
  have h1 : k ≤ (length - 1) / step := by omega
  calc k * step ≤ (length - 1) / step * step := Nat.mul_le_mul_right _ h1
    _ ≤ length - 1 := Nat.div_mul_le_self _ _

lemma head?_fwdIndices (length step : Nat) (hs : 0 < step) (hl : 0 < length) :
    (fwdIndices length step).head? = some 0 := by
  unfold fwdIndices
  rw [eachIndices_range_count length step hs hl, List.range_succ_eq_map]
  simp

lemma head?_revIndices (length step : Nat) (hs : 0 < step) (hl : 0 < length) :
    (revIndices length step).head? = some (length - 1) := by
  unfold revIndices
  rw [eachIndices_range_count length step hs hl, List.range_succ_eq_map]
  simp

lemma getLast?_fwdIndices (length step : Nat) (hs : 0 < step) (hl : 0 < length)
    (hdvd : (length - 1) % step = 0) :
    (fwdIndices length step).getLast? = some (length - 1) := by
  unfold fwdIndices
  rw [List.getLast?_eq_getElem?, List.length_map, List.length_range,
    eachIndices_range_count length step hs hl]
  simp only [Nat.add_sub_cancel]
  rw [List.getElem?_map, List.getElem?_range (by omega)]
  simp only [Option.map_some']
  congr 1
  exact Nat.div_mul_cancel (Nat.dvd_of_mod_eq_zero hdvd)

lemma getLast?_revIndices (length step : Nat) (hs : 0 < step) (hl : 0 < length)
    (hdvd : (length - 1) % step = 0) :
    (revIndices length step).getLast? = some 0 := by
  unfold revIndices
  rw [List.getLast?_eq_getElem?, List.length_map, List.length_range,
    eachIndices_range_count length step hs hl]
  simp only [Nat.add_sub_cancel]
  rw [List.getElem?_map, List.getElem?_range (by omega)]
  simp only [Option.map_some']
  congr 1
  rw [Nat.div_mul_cancel (Nat.dvd_of_mod_eq_zero hdvd)]
  omega

lemma eachIndices_false (length step : Nat) :
    eachIndices length false step = fwdIndices length step := rfl

lemma eachIndices_true (length step : Nat) :
    eachIndices length true step = revIndices length step := rfl

lemma ctxAt_isFirst_false [Inhabited T] (items : List T) (step i : Nat) :
    (ctxAt items false step i).isFirst = (i == 0) := rfl

lemma ctxAt_isFirst_true [Inhabited T] (items : List T) (step i : Nat) :
    (ctxAt items true step i).isFirst = (i == items.length - 1) := rfl

lemma ctxAt_isLast_false [Inhabited T] (items : List T) (step i : Nat) :
    (ctxAt items false step i).isLast = (i == items.length - 1) := rfl

lemma ctxAt_isLast_true [Inhabited T] (items : List T) (step i : Nat) :
    (ctxAt items true step i).isLast = (i == 0) := rfl

/-- Counterexample to C5: forward traversal of a 4-element list with step 2
visits exactly the indices `[0, 2]`, so the last actually visited element
is the one at index 2, yet its context's `isLast` is `false` (the code
compares the index against `length - 1 = 3`). -/
theorem isLast_false_on_last_visited :
    eachIndices 4 false 2 = [0, 2] ∧
      (eachIndices 4 false 2).getLastD 99 = 2 ∧
      (ctxAt ([10, 20, 30, 40] : List ℕ) false 2 2).isLast = false := by
  refine ⟨by decide, by decide, by decide⟩

/-- C5 amended: for every list and any traversal configuration with a
positive step, `isFirst` is true exactly on the first actually visited
element; `isLast`, however, is true exactly on the element at the storage
boundary of the traversal (index `length − 1` forward, index 0 in
reverse), which is the last actually visited element only when `step`
divides `length − 1` (in particular always for `step = 1`). -/
theorem isFirst_exact_isLast_boundary [Inhabited T]
    (items : List T) (rv : Bool) (step : Nat) (hs : 0 < step) :
    (∀ i ∈ eachIndices items.length rv step,
      ((ctxAt items rv step i).isFirst = true ↔
        (eachIndices items.length rv step).head? = some i)) ∧
    (∀ i ∈ eachIndices items.length rv step,
      ((ctxAt items rv step i).isLast = true ↔
        i = (if rv then 0 else items.length - 1))) ∧
    ((items.length - 1) % step = 0 →
      ∀ i ∈ eachIndices items.length rv step,
        ((ctxAt items rv step i).isLast = true ↔
          (eachIndices items.length rv step).getLast? = some i)) := by
  refine ⟨?_, ?_, ?_⟩
  · intro i hi
    have hl := eachIndices_pos_length hi
    cases rv with
    | false =>
      rw [eachIndices_false] at hi ⊢
      rw [head?_fwdIndices items.length step hs hl, ctxAt_isFirst_false,
        beq_iff_eq, Option.some_inj]
      exact eq_comm
    | true =>
      rw [eachIndices_true] at hi ⊢
      rw [head?_revIndices items.length step hs hl, ctxAt_isFirst_true,
        beq_iff_eq, Option.some_inj]
      exact eq_comm
  · intro i hi
    cases rv with
    | false =>
      rw [ctxAt_isLast_false, if_neg (by simp), beq_iff_eq]
    | true =>
      rw [ctxAt_isLast_true, if_pos rfl, beq_iff_eq]
  · intro hdvd i hi
    have hl := eachIndices_pos_length hi
    cases rv with
    | false =>
      rw [eachIndices_false] at hi ⊢
      rw [getLast?_fwdIndices items.length step hs hl hdvd, ctxAt_isLast_false,
        beq_iff_eq, Option.some_inj]
      exact eq_comm
    | true =>
      rw [eachIndices_true] at hi ⊢
      rw [getLast?_revIndices items.length step hs hl hdvd, ctxAt_isLast_true,
        beq_iff_eq, Option.some_inj]
      exact eq_comm

/-- Witness for the amended C5 on `[10, 20, 30, 40]`, forward, step 1:
the element at index 3 is flagged `isLast` and is the last visited. -/
theorem isFirst_exact_isLast_boundary_witness :
    (ctxAt ([10, 20, 30, 40] : List ℕ) false 1 3).isLast = true ↔
      (eachIndices ([10, 20, 30, 40] : List ℕ).length false 1).getLast? = some 3 :=
  (isFirst_exact_isLast_boundary ([10, 20, 30, 40] : List ℕ) false 1
      (by decide)).2.2 (by decide) 3 (by decide)

/-- The `SortMethod` union of the source. -/
inductive SortMethod where
  | merge : SortMethod
  | quick : SortMethod
  | bubble : SortMethod
  | insertion : SortMethod
  | selection : SortMethod
  | heap : SortMethod
  | radix : SortMethod
deriving DecidableEq, Repr

/-- `getDefaultCompare(direction)` (src/unnamed/part_000 lines 485-494),
parametrized over the host-environment views the dynamic type tests use:
`nu x` is `some q` exactly when `typeof x === 'number'` (with `q` the
numeric value), and `jslt`/`jsgt` are the host `<`/`>` operators used in
the non-both-numeric branch.  Comparator results are JS numbers (`ℚ`). -/
def getDefaultCompare (nu : T → Option ℚ) (jslt jsgt : T → T → Bool)
    (direction : SortDirection) : T → T → ℚ :=
  fun a b =>
    match nu a, nu b with
    | some x, some y =>
      match direction with
      | SortDirection.asc => x - y
      | SortDirection.desc => y - x
    | _, _ =>
      if jslt a b then (match direction with | SortDirection.asc => -1 | SortDirection.desc => 1)
      else if jsgt a b then (match direction with | SortDirection.asc => 1 | SortDirection.desc => -1)
      else 0

/-- The destructuring swap `[items[i], items[j]] = [items[j], items[i]]`
(both reads happen before both writes; `List.set` out of bounds is a
no-op, matching that the algorithms only swap in-bounds indices). -/
def lswap [Inhabited T] (l : List T) (i j : Nat) : List T :=
  let vi := l.getD i default
  let vj := l.getD j default
  (l.set i vj).set j vi

/-- The loop of `sortPartition` (lines 532-545).  `i1` is `i + 1` of the
source (whose `i` starts at `low - 1`, possibly −1); the pair returned is
the array after the final swap with the pivot position and the pivot's new
index `i + 1`. -/
def lomutoGo [Inhabited T] (cmp : T → T → ℚ) (pivot : T) (high : Nat)
    (a : List T) (i1 j : Nat) : List T × Nat :=
  if _h : j < high then
    if cmp (a.getD j default) pivot ≤ 0 then
      lomutoGo cmp pivot high (lswap a i1 j) (i1 + 1) (j + 1)
    else lomutoGo cmp pivot high a i1 (j + 1)
  else (lswap a i1 high, i1)
termination_by high - j

/-- `sortPartition(low, high, compare)`: pivot is the element at `high`,
read before the loop. -/
def sortPartition [Inhabited T] (cmp : T → T → ℚ) (a : List T) (low high : Nat) :
    List T × Nat :=
  lomutoGo cmp (a.getD high default) high a low low

lemma lomutoGo_snd_bounds [Inhabited T] (cmp : T → T → ℚ) (pivot : T) (high : Nat) :
    ∀ (n : Nat) (a : List T) (i1 j : Nat), high - j ≤ n → i1 ≤ j → j ≤ high →
      i1 ≤ (lomutoGo cmp pivot high a i1 j).2 ∧
        (lomutoGo cmp pivot high a i1 j).2 ≤ high := by
  intro n
  induction n with
  | zero =>
    intro a i1 j hn h1 h2
    rw [lomutoGo, dif_neg (by omega)]
    exact ⟨le_refl _, by omega⟩
  | succ n ih =>
    intro a i1 j hn h1 h2
    by_cases h : j < high
    · rw [lomutoGo, dif_pos h]
      by_cases hcmp : cmp (a.getD j default) pivot ≤ 0
      · rw [if_pos hcmp]
        have := ih (lswap a i1 j) (i1 + 1) (j + 1) (by omega) (by omega) (by omega)
        omega
      · rw [if_neg hcmp]
        have := ih a i1 (j + 1) (by omega) (by omega) (by omega)
        omega
    · rw [lomutoGo, dif_neg h]
      exact ⟨le_refl _, by omega⟩

lemma sortPartition_snd_bounds [Inhabited T] (cmp : T → T → ℚ) (a : List T)
    (low high : Nat) (h : low ≤ high) :
    low ≤ (sortPartition cmp a low high).2 ∧ (sortPartition cmp a low high).2 ≤ high :=
  lomutoGo_snd_bounds cmp (a.getD high default) high (high - low) a low low
    (le_refl _) (le_refl _) h

/-- `quickSort(low, high, compare)` (lines 524-530): recursive in-place
Lomuto quicksort; indices are integers because the entry call passes
`length - 1` (which is −1 on an empty list). -/
def quickSortAux [Inhabited T] (cmp : T → T → ℚ) (a : List T) (low : Nat) (high : Int) : List T :=
  if h : (low : Int) < high then
    let pr := sortPartition cmp a low high.toNat
    quickSortAux cmp (quickSortAux cmp pr.1 low ((pr.2 : Int) - 1)) (pr.2 + 1) high
  else a
termination_by (high + 1 - (low : Int)).toNat
decreasing_by
  · have hb := sortPartition_snd_bounds cmp a low high.toNat (by omega)
    omega
  · have hb := sortPartition_snd_bounds cmp a low high.toNat (by omega)
    omega

/-- The `'quick'` dispatch `this.quickSort(0, this.items.length - 1, compare)`. -/
def quickSortRun [Inhabited T] (cmp : T → T → ℚ) (a : List T) : List T :=
  quickSortAux cmp a 0 ((a.length : Int) - 1)

/-- `merge(left, right, compare)` (lines 506-522): the index-based while
loop followed by appending both leftovers, written as the equivalent
structural recursion. -/
def jsMerge [Inhabited T] (cmp : T → T → ℚ) : List T → List T → List T
  | [], r => r
  | l, [] => l
  | x :: xs, y :: ys =>
    if cmp x y ≤ 0 then x :: jsMerge cmp xs (y :: ys)
    else y :: jsMerge cmp (x :: xs) ys
termination_by l r => l.length + r.length

/-- `mergeSort(arr, compare)` (lines 496-504): split at `⌊length/2⌋`,
recurse, merge. -/
def jsMergeSort [Inhabited T] (cmp : T → T → ℚ) (arr : List T) : List T :=
  if _h : arr.length ≤ 1 then arr
  else
    jsMerge cmp (jsMergeSort cmp (arr.take (arr.length / 2)))
      (jsMergeSort cmp (arr.drop (arr.length / 2)))
termination_by arr.length
decreasing_by
  · rw [List.length_take]
    omega
  · rw [List.length_drop]
    omega

/-- Inner loop of `bubbleSort` (lines 547-556), index `j` up to `n-i-2`. -/
def bubbleJ [Inhabited T] (cmp : T → T → ℚ) (n i : Nat) (a : List T) (j : Nat) : List T :=
  if _h : j < n - i - 1 then
    bubbleJ cmp n i
      (if cmp (a.getD j default) (a.getD (j + 1) default) > 0 then lswap a j (j + 1) else a)
      (j + 1)
  else a
termination_by n - i - 1 - j

/-- Outer loop of `bubbleSort`, index `i` up to `n-2`. -/
def bubbleI [Inhabited T] (cmp : T → T → ℚ) (n : Nat) (a : List T) (i : Nat) : List T :=
  if _h : i < n - 1 then bubbleI cmp n (bubbleJ cmp n i a 0) (i + 1) else a
termination_by n - 1 - i

/-- `bubbleSort(compare)`. -/
def bubbleSortRun [Inhabited T] (cmp : T → T → ℚ) (a : List T) : List T :=
  bubbleI cmp a.length a 0

/-- Shifting while-loop of `insertionSort` (lines 558-569); `jj` is `j + 1`
of the source, so the loop guard `j >= 0` becomes `1 ≤ jj` and the final
write `items[j + 1] = key` is `set jj key`. -/
def insertKey [Inhabited T] (cmp : T → T → ℚ) (key : T) (a : List T) (jj : Nat) : List T :=
  if h : 1 ≤ jj ∧ cmp (a.getD (jj - 1) default) key > 0 then
    insertKey cmp key (a.set jj (a.getD (jj - 1) default)) (jj - 1)
  else a.set jj key
termination_by jj
decreasing_by omega

/-- Outer loop of `insertionSort`, `i` from 1 to `n-1`; `key = items[i]` is
read before shifting. -/
def insertionI [Inhabited T] (cmp : T → T → ℚ) (n : Nat) (a : List T) (i : Nat) : List T :=
  if _h : i < n then insertionI cmp n (insertKey cmp (a.getD i default) a i) (i + 1) else a
termination_by n - i

/-- `insertionSort(compare)`. -/
def insertionSortRun [Inhabited T] (cmp : T → T → ℚ) (a : List T) : List T :=
  insertionI cmp a.length a 1

/-- Inner scan of `selectionSort` (lines 571-584) for the minimum index. -/
def selMin [Inhabited T] (cmp : T → T → ℚ) (a : List T) (stop j minIdx : Nat) : Nat :=
  if _h : j < stop then
    selMin cmp a stop (j + 1)
      (if cmp (a.getD j default) (a.getD minIdx default) < 0 then j else minIdx)
  else minIdx
termination_by stop - j

/-- Outer loop of `selectionSort`: find the minimum of the suffix and swap
it to position `i` when it moved. -/
def selI [Inhabited T] (cmp : T → T → ℚ) (n : Nat) (a : List T) (i : Nat) : List T :=
  if _h : i < n - 1 then
    selI cmp n
      (if selMin cmp a n (i + 1) i ≠ i then lswap a i (selMin cmp a n (i + 1) i) else a)
      (i + 1)
  else a
termination_by n - 1 - i

/-- `selectionSort(compare)`. -/
def selectionSortRun [Inhabited T] (cmp : T → T → ℚ) (a : List T) : List T :=
  selI cmp a.length a 0

/-- The `largest` computation of `heapify` after the left-child test
(lines 600-606). -/
def heapLargest1 [Inhabited T] (cmp : T → T → ℚ) (n : Nat) (a : List T) (i : Nat) : Nat :=
  if 2 * i + 1 < n then
    (if cmp (a.getD (2 * i + 1) default) (a.getD i default) > 0 then 2 * i + 1 else i)
  else i

/-- The `largest` computation of `heapify` after both child tests
(lines 600-610). -/
def heapLargest [Inhabited T] (cmp : T → T → ℚ) (n : Nat) (a : List T) (i : Nat) : Nat :=
  if 2 * i + 2 < n then
    (if cmp (a.getD (2 * i + 2) default) (a.getD (heapLargest1 cmp n a i) default) > 0
      then 2 * i + 2 else heapLargest1 cmp n a i)
  else heapLargest1 cmp n a i

lemma heapLargest1_bounds [Inhabited T] (cmp : T → T → ℚ) (n : Nat) (a : List T) (i : Nat) :
    heapLargest1 cmp n a i = i ∨
      (i < heapLargest1 cmp n a i ∧ heapLargest1 cmp n a i < n) := by
  unfold heapLargest1
  split_ifs <;> omega

lemma heapLargest_bounds [Inhabited T] (cmp : T → T → ℚ) (n : Nat) (a : List T) (i : Nat) :
    heapLargest cmp n a i = i ∨
      (i < heapLargest cmp n a i ∧ heapLargest cmp n a i < n) := by
  unfold heapLargest
  rcases heapLargest1_bounds cmp n a i with h1 | ⟨h1a, h1b⟩ <;> split_ifs <;> omega

/-- `heapify(n, i, compare)` (lines 599-616): sift-down with children
`2i+1`, `2i+2`; recursion only when the largest moved, so the index
strictly grows below `n`. -/
def heapifyGo [Inhabited T] (cmp : T → T → ℚ) (n : Nat) (a : List T) (i : Nat) : List T :=
  if _h : heapLargest cmp n a i ≠ i then
    heapifyGo cmp n (lswap a i (heapLargest cmp n a i)) (heapLargest cmp n a i)
  else a
termination_by n - i
decreasing_by
  rcases heapLargest_bounds cmp n a i with h1 | ⟨h1a, h1b⟩
  · exact absurd h1 _h
  · omega

/-- `heapSort(compare)` (lines 586-597): build the heap from
`⌊n/2⌋ - 1` down to 0, then repeatedly swap the root with position `i` and
re-heapify the prefix of size `i`, for `i` from `n-1` down to 1. -/
def heapSortRun [Inhabited T] (cmp : T → T → ℚ) (a : List T) : List T :=
  ((List.range' 1 (a.length - 1)).reverse).foldl
    (fun acc i => heapifyGo cmp i (lswap acc 0 i) 0)
    (((List.range (a.length / 2)).reverse).foldl
      (fun acc i => heapifyGo cmp a.length acc i) a)

/-- `isRadixSortable` per element (lines 618-622):
`typeof item === 'number' && item >= 0 && Number.isInteger(item)`. -/
def radixSortable (nu : T → Option ℚ) (x : T) : Bool :=
  match nu x with
  | some q => decide (0 ≤ q) && decide (q.den = 1)
  | none => false

/-- The numeric value of a radix-sortable element (0 for others; only read
under the sortable check). -/
def numOf (nu : T → Option ℚ) (x : T) : Nat :=
  match nu x with
  | some q => q.num.toNat
  | none => 0

/-- `Math.floor((item / Math.pow(10, digit)) % 10)`: for a non-negative
integer item this is the decimal digit `item / 10^digit % 10`. -/
def digitOf (nu : T → Option ℚ) (x : T) (dgt : Nat) : Nat :=
  numOf nu x / 10 ^ dgt % 10

/-- One bucket pass of `radixSort` (lines 632-642): stable distribution
into ten buckets by the current digit, then flatten — in reversed bucket
order for `'desc'`. -/
def radixPass (nu : T → Option ℚ) (direction : SortDirection)
    (items : List T) (dgt : Nat) : List T :=
  let buckets := (List.range 10).map
    (fun b => items.filter (fun x => digitOf nu x dgt == b))
  match direction with
  | SortDirection.asc => buckets.flatten
  | SortDirection.desc => buckets.reverse.flatten

/-- The number of digit passes of `radixSort`:
`Math.floor(Math.log10(max)) + 1` where `max = Math.max(...items)`.  For
an empty list `max` is `-Infinity` and for `max = 0` the logarithm is
`-Infinity`, so in both cases the float comparison `digit < maxDigits`
fails immediately and there are zero passes; otherwise there are
`⌊log10 max⌋ + 1` passes. -/
def radixMaxDigits (nu : T → Option ℚ) (items : List T) : Nat :=
  match items with
  | [] => 0
  | _ =>
    let mx := (items.map (numOf nu)).foldl max 0
    if mx = 0 then 0 else Nat.log 10 mx + 1

/-- `radixSort(direction)` (lines 624-643): throws when some element is
not a non-negative integer, otherwise runs the digit passes. -/
def radixSortRun (nu : T → Option ℚ) (direction : SortDirection)
    (items : List T) : Except String (List T) :=
  if items.all (radixSortable nu) then
    Except.ok ((List.range (radixMaxDigits nu items)).foldl (radixPass nu direction) items)
  else Except.error "Radix sort is only applicable for lists of positive integers."

/-- Modelled host `Array.prototype.sort(comparator)`: ECMAScript requires
a stable sort ordered by the comparator (nonpositive value keeps the first
argument first); modelled as the stable merge sort of the Lean library. -/
def nativeSort (cmp : T → T → ℚ) (l : List T) : List T :=
  l.mergeSort (fun a b => decide (cmp a b ≤ 0))

/-- `sort(directionOrCompare?, method?)` (lines 434-483).  The first
argument is `none` (absent), a direction token, or a comparison function;
`direction` stays `'asc'` unless a direction token is given, and the
comparator is the given function or the synthesized default one.  The
`'radix'` case checks `isRadixSortable()` and falls back to quicksort with
a logged warning otherwise; all other cases dispatch directly.  Errors
(the `throw` inside `radixSort`) surface as `Except.error`. -/
def sortRun [Inhabited T] (nu : T → Option ℚ) (jslt jsgt : T → T → Bool)
    (arg : Option (SortDirection ⊕ (T → T → ℚ))) (method : Option SortMethod)
    (items : List T) : Except String (List T) :=
  let direction : SortDirection :=
    match arg with
    | some (Sum.inl d) => d
    | _ => SortDirection.asc
  let cmp : T → T → ℚ :=
    match arg with
    | some (Sum.inr f) => f
    | _ => getDefaultCompare nu jslt jsgt direction
  match method with
  | some SortMethod.merge => Except.ok (jsMergeSort cmp items)
  | some SortMethod.quick => Except.ok (quickSortRun cmp items)
  | some SortMethod.bubble => Except.ok (bubbleSortRun cmp items)
  | some SortMethod.insertion => Except.ok (insertionSortRun cmp items)
  | some SortMethod.selection => Except.ok (selectionSortRun cmp items)
  | some SortMethod.heap => Except.ok (heapSortRun cmp items)
  | some SortMethod.radix =>
    if items.all (radixSortable nu) then radixSortRun nu direction items
    else Except.ok (quickSortRun cmp items)
  | none => Except.ok (nativeSort cmp items)

/-- C3: for every list containing at least one element that is not a
non-negative integer, `sort(direction, 'radix')` does not throw: it takes
the fallback branch (after the logged warning, which has no effect on the
contents) and runs quicksort with the synthesized default comparator for
the given direction, returning exactly what `sort(direction, 'quick')`
returns on the same input. -/
theorem radix_falls_back_to_quicksort [Inhabited T] (nu : T → Option ℚ)
    (jslt jsgt : T → T → Bool) (dir : SortDirection) (items : List T)
    (hx : ∃ x ∈ items, radixSortable nu x = false) :
    sortRun nu jslt jsgt (some (Sum.inl dir)) (some SortMethod.radix) items =
        sortRun nu jslt jsgt (some (Sum.inl dir)) (some SortMethod.quick) items ∧
      sortRun nu jslt jsgt (some (Sum.inl dir)) (some SortMethod.radix) items =
        Except.ok (quickSortRun (getDefaultCompare nu jslt jsgt dir) items) := by
  have hall : items.all (radixSortable nu) = false := by
    rcases hx with ⟨x, hmem, hfalse⟩
    rw [List.all_eq_false]
    exact ⟨x, hmem, by rw [hfalse]; exact Bool.false_ne_true⟩
  have hradix : sortRun nu jslt jsgt (some (Sum.inl dir)) (some SortMethod.radix) items =
      if items.all (radixSortable nu) then radixSortRun nu dir items
      else Except.ok (quickSortRun (getDefaultCompare nu jslt jsgt dir) items) := rfl
  have hquick : sortRun nu jslt jsgt (some (Sum.inl dir)) (some SortMethod.quick) items =
      Except.ok (quickSortRun (getDefaultCompare nu jslt jsgt dir) items) := rfl
  rw [hradix, hquick, hall]
  exact ⟨rfl, rfl⟩

/-- Witness for C3: the singleton list holding the negative number `-1`
(not a non-negative integer) falls back from radix to quicksort. -/
theorem radix_falls_back_to_quicksort_witness :
    sortRun some (fun _ _ => false) (fun _ _ => false)
        (some (Sum.inl SortDirection.asc)) (some SortMethod.radix) [(-1 : ℚ)] =
      sortRun some (fun _ _ => false) (fun _ _ => false)
        (some (Sum.inl SortDirection.asc)) (some SortMethod.quick) [(-1 : ℚ)] :=
  (radix_falls_back_to_quicksort some (fun _ _ => false) (fun _ _ => false)
      SortDirection.asc [(-1 : ℚ)]
      ⟨(-1 : ℚ), List.mem_singleton.mpr rfl, by decide⟩).1

lemma jsMergeSort_short [Inhabited T] (cmp : T → T → ℚ) (items : List T)
    (h : items.length ≤ 1) : jsMergeSort cmp items = items := by
  rw [jsMergeSort, dif_pos h]

lemma quickSortRun_short [Inhabited T] (cmp : T → T → ℚ) (items : List T)
    (h : items.length ≤ 1) : quickSortRun cmp items = items := by
  unfold quickSortRun
  rw [quickSortAux, dif_neg (by omega)]

lemma bubbleSortRun_short [Inhabited T] (cmp : T → T → ℚ) (items : List T)
    (h : items.length ≤ 1) : bubbleSortRun cmp items = items := by
  unfold bubbleSortRun
  rw [bubbleI, dif_neg (by omega)]

lemma insertionSortRun_short [Inhabited T] (cmp : T → T → ℚ) (items : List T)
    (h : items.length ≤ 1) : insertionSortRun cmp items = items := by
  unfold insertionSortRun
  rw [insertionI, dif_neg (by omega)]

lemma selectionSortRun_short [Inhabited T] (cmp : T → T → ℚ) (items : List T)
    (h : items.length ≤ 1) : selectionSortRun cmp items = items := by
  unfold selectionSortRun
  rw [selI, dif_neg (by omega)]

lemma heapSortRun_short [Inhabited T] (cmp : T → T → ℚ) (items : List T)
    (h : items.length ≤ 1) : heapSortRun cmp items = items := by
  unfold heapSortRun
  have h2 : items.length / 2 = 0 := by omega
  have h3 : items.length - 1 = 0 := by omega
  rw [h2, h3]
  rfl

lemma nativeSort_short (cmp : T → T → ℚ) (items : List T)
    (h : items.length ≤ 1) : nativeSort cmp items = items := by
  match items, h with
  | [], _ => exact List.mergeSort_nil
  | [x], _ => exact List.mergeSort_singleton x

lemma radixPass_singleton [Inhabited T] (nu : T → Option ℚ) (dir : SortDirection)
    (x : T) (dgt : Nat) : radixPass nu dir [x] dgt = [x] := by
  have hd : digitOf nu x dgt < 10 := Nat.mod_lt _ (by omega)
  unfold radixPass
  simp only [List.filter_singleton]
  revert hd
  generalize digitOf nu x dgt = v
  intro hd
  cases dir with
  | asc => interval_cases v <;> rfl
  | desc => interval_cases v <;> rfl

lemma radixPasses_singleton [Inhabited T] (nu : T → Option ℚ) (dir : SortDirection)
    (x : T) : ∀ m, (List.range m).foldl (radixPass nu dir) [x] = [x] := by
  intro m
  induction m with
  | zero => rfl
  | succ m ih =>
    rw [List.range_succ, List.foldl_append, ih]
    simp only [List.foldl_cons, List.foldl_nil]
    exact radixPass_singleton nu dir x m

lemma radixSortRun_short [Inhabited T] (nu : T → Option ℚ) (dir : SortDirection)
    (items : List T) (h : items.length ≤ 1)
    (hall : items.all (radixSortable nu) = true) :
    radixSortRun nu dir items = Except.ok items := by
  unfold radixSortRun
  rw [if_pos hall]
  match items, h with
  | [], _ => rfl
  | [x], _ => rw [radixPasses_singleton]

/-- C4: on a list of length 0 or 1, `sort` is a no-op for every method
(default native sort, merge, quick, bubble, insertion, selection, heap,
radix) and every first argument (absent, direction token, or custom
comparator): the contents are returned unchanged and nothing throws (the
source returns `this` unconditionally). -/
theorem sort_noop_on_short [Inhabited T] (nu : T → Option ℚ)
    (jslt jsgt : T → T → Bool)
    (arg : Option (SortDirection ⊕ (T → T → ℚ))) (method : Option SortMethod)
    (items : List T) (h : items.length ≤ 1) :
    sortRun nu jslt jsgt arg method items = Except.ok items := by
  match method with
  | some SortMethod.merge =>
    show Except.ok (jsMergeSort _ items) = _
    rw [jsMergeSort_short _ _ h]
  | some SortMethod.quick =>
    show Except.ok (quickSortRun _ items) = _
    rw [quickSortRun_short _ _ h]
  | some SortMethod.bubble =>
    show Except.ok (bubbleSortRun _ items) = _
    rw [bubbleSortRun_short _ _ h]
  | some SortMethod.insertion =>
    show Except.ok (insertionSortRun _ items) = _
    rw [insertionSortRun_short _ _ h]
  | some SortMethod.selection =>
    show Except.ok (selectionSortRun _ items) = _
    rw [selectionSortRun_short _ _ h]
  | some SortMethod.heap =>
    show Except.ok (heapSortRun _ items) = _
    rw [heapSortRun_short _ _ h]
  | some SortMethod.radix =>
    show (if items.all (radixSortable nu) then _ else _) = _
    by_cases hall : items.all (radixSortable nu)
    · rw [if_pos hall]
      exact radixSortRun_short nu _ items h hall
    · rw [if_neg hall, quickSortRun_short _ _ h]
  | none =>
    show Except.ok (nativeSort _ items) = _
    rw [nativeSort_short _ _ h]

/-- Witness for C4 on the singleton rational list `[3]`, sorted with the
default comparator in ascending direction by the bubble method. -/
theorem sort_noop_on_short_witness :
    sortRun some (fun _ _ => false) (fun _ _ => false)
        (some (Sum.inl SortDirection.asc)) (some SortMethod.bubble) [(3 : ℚ)] =
      Except.ok [(3 : ℚ)] :=
  sort_noop_on_short some (fun _ _ => false) (fun _ _ => false)
    (some (Sum.inl SortDirection.asc)) (some SortMethod.bubble) [(3 : ℚ)] (by decide)

/-- The `median` getter (src/unnamed/part_000 lines 122-130) on a list of
JS numbers: sort the copy `[...this.items]` with the getter's comparator
(numeric subtraction, since on an all-numeric list the
`typeof`-both-numbers branch is always taken), take the element at
`⌊length/2⌋` for odd length and the average of the elements at
`⌊length/2⌋ - 1` and `⌊length/2⌋` for even length.  First component: the
returned value; second component: the container contents after the call
(the getter only reads them — the sort runs on the spread copy). -/
def medianRun (l : List ℚ) : ℚ × List ℚ :=
  let sorted := nativeSort (fun a b => a - b) l
  let mid := sorted.length / 2
  (if sorted.length % 2 ≠ 0 then sorted.getD mid 0
    else (sorted.getD (mid - 1) 0 + sorted.getD mid 0) / 2, l)

lemma nativeSort_sub_perm (l : List ℚ) : (nativeSort (fun a b => a - b) l).Perm l :=
  List.mergeSort_perm l _

lemma nativeSort_sub_sorted (l : List ℚ) :
    (nativeSort (fun a b => a - b) l).Sorted (· ≤ ·) := by
  have h := @List.sorted_mergeSort ℚ (fun a b : ℚ => decide (a - b ≤ 0))
    (fun a b c hab hbc => by
      simp only [decide_eq_true_eq] at *
      linarith)
    (fun a b => by
      simp only [Bool.or_eq_true, decide_eq_true_eq]
      rcases le_total a b with h | h
      · exact Or.inl (by linarith)
      · exact Or.inr (by linarith))
    l
  refine h.imp ?_
  intro a b hab
  have := of_decide_eq_true hab
  linarith

lemma nativeSort_sub_length (l : List ℚ) :
    (nativeSort (fun a b => a - b) l).length = l.length :=
  List.length_mergeSort l

/-- C8: reading `median` leaves the container's stored sequence unchanged
(the sort runs on a copy), and on an even-length all-numeric list of
length `2m > 0` the returned value is the average of the two middle
elements of the sorted copy — stated against any sorted permutation of
the list, which is unique. -/
theorem median_copy_and_even_average (l : List ℚ) :
    (medianRun l).2 = l ∧
      (∀ m : Nat, 0 < m → l.length = 2 * m →
        ∀ s : List ℚ, s.Perm l → s.Sorted (· ≤ ·) →
          (medianRun l).1 = (s.getD (m - 1) 0 + s.getD m 0) / 2) := by
  constructor
  · rfl
  · intro m hm hlen s hperm hsorted
    have hseq : s = nativeSort (fun a b => a - b) l :=
      List.eq_of_perm_of_sorted (hperm.trans (nativeSort_sub_perm l).symm)
        hsorted (nativeSort_sub_sorted l)
    have hlen2 : (nativeSort (fun a b => a - b) l).length = 2 * m := by
      rw [nativeSort_sub_length]
      exact hlen
    have heval : (medianRun l).1 =
        if (nativeSort (fun a b => a - b) l).length % 2 ≠ 0
        then (nativeSort (fun a b => a - b) l).getD
          ((nativeSort (fun a b => a - b) l).length / 2) 0
        else ((nativeSort (fun a b => a - b) l).getD
            ((nativeSort (fun a b => a - b) l).length / 2 - 1) 0 +
          (nativeSort (fun a b => a - b) l).getD
            ((nativeSort (fun a b => a - b) l).length / 2) 0) / 2 := rfl
    rw [heval, hlen2, hseq]
    have hmod : ¬(2 * m % 2 ≠ 0) := by omega
    rw [if_neg hmod]
    have hdiv : 2 * m / 2 = m := by omega
    rw [hdiv]

/-- Witness for C8 on `[3, 1, 2, 4]`: the median is `(2 + 3)/2`, computed
from the sorted copy `[1, 2, 3, 4]`, and the contents are unchanged. -/
theorem median_copy_and_even_average_witness :
    (medianRun [3, 1, 2, 4]).2 = [3, 1, 2, 4] ∧
      (medianRun [3, 1, 2, 4]).1 =
        (([1, 2, 3, 4] : List ℚ).getD 1 0 + ([1, 2, 3, 4] : List ℚ).getD 2 0) / 2 :=
  ⟨(median_copy_and_even_average [3, 1, 2, 4]).1,
    (median_copy_and_even_average [3, 1, 2, 4]).2 2 (by omega) (by rfl)
      [1, 2, 3, 4] (by decide) (by decide)⟩

end Superarray
